import Mathlib

/-!
Verification of the poseidon-rs crate: finite-field arithmetic, the Poseidon
permutation/sponge construction, the byte codec, and the C foreign-call
boundary exposed in `src/lib.rs`.  The crate's `fields`, `convert`,
`permutation` and `parameters` modules are declared in `lib.rs` but their
bodies are not part of the visible source tree, so those components are
modelled from the design specification; `lib.rs` itself (the per-parameter-set
wrappers and the `c_hash_s128b` foreign entry point) is embedded directly.
Field elements are canonical residues, represented as `Nat` below the modulus.
-/

namespace Poseidon

/-- Modelled from the spec: error condition raised by field inversion of zero
(`fields` module is not in the visible source; spec sect. 4.1 and 7). -/
inductive FieldError where
  | DivisionByZero
deriving DecidableEq, Repr

/-- Modelled from the spec: error condition raised by the sponge construction
on an internally inconsistent Parameter Set (spec sect. 4.3 and 7). -/
inductive HashError where
  | InvalidInput
deriving DecidableEq, Repr

/-- Modelled from the spec: field addition `add(a,b) = (a+b) mod p`
(spec sect. 4.1; the `fields` module is not in the visible source). -/
def fadd (p a b : Nat) : Nat := (a + b) % p

/-- Modelled from the spec: field subtraction `sub(a,b) = (a-b+p) mod p`
(spec sect. 4.1). -/
def fsub (p a b : Nat) : Nat := (a + p - b) % p

/-- Modelled from the spec: field negation `neg(a) = (p-a) mod p` (spec
sect. 4.1). -/
def fneg (p a : Nat) : Nat := (p - a) % p

/-- Modelled from the spec: field multiplication `mul(a,b) = (a*b) mod p`,
computed with a double-width intermediate in the source (spec sect. 4.1). -/
def fmul (p a b : Nat) : Nat := a * b % p

/-- Modelled from the spec: exponentiation `pow(a,e)`; the source computes it
by repeated squaring with reduction at every step, whose value is
`a^e mod p`, with `pow(a,0) = 1` by convention (spec sect. 4.1). -/
def fpow (p a e : Nat) : Nat := a ^ e % p

/-- Modelled from the spec: multiplicative inversion, failing with
DivisionByZero on the zero element and otherwise returning `a^(p-2) mod p`
by Fermat (spec sect. 4.1). -/
def invert (p a : Nat) : Except FieldError Nat :=
  if a = 0 then Except.error FieldError.DivisionByZero
  else Except.ok (fpow p a (p - 2))

/-- Fuel-driven bit-length helper: number of binary digits of `n`, with
recursion bounded by `fuel`. -/
def bitLenAux : Nat → Nat → Nat
  | 0, _ => 0
  | fuel + 1, n => if n = 0 then 0 else bitLenAux fuel (n / 2) + 1

/-- Bit length of a natural number (`0` has bit length `0`). -/
def bitLen (n : Nat) : Nat := bitLenAux n n

/-- Modelled from the spec: byte width of one encoded field element, the
modulus's bit length rounded up to a byte boundary (spec sect. 4.1). -/
def elemWidth (p : Nat) : Nat := (bitLen p + 7) / 8

/-- Modelled from the spec: fixed-width little-endian byte encoding of the
integer `x` on `w` bytes (spec sect. 4.1; the `convert` module is not in the
visible source, and the spec fixes no byte order, so little-endian is the
model's fixed choice). -/
def encodeBytes (w x : Nat) : List Nat :=
  match w with
  | 0 => []
  | w + 1 => x % 256 :: encodeBytes w (x / 256)

/-- Little-endian integer value of a byte buffer. -/
def decodeInt (bytes : List Nat) : Nat :=
  bytes.foldr (fun b acc => b + 256 * acc) 0

/-- Modelled from the spec: decoding one element-width buffer reduces the
interpreted integer modulo `p`; decoding is total (spec sect. 4.1). -/
def decodeElem (p : Nat) (bytes : List Nat) : Nat := decodeInt bytes % p

/-- Fuel-driven splitting of a list into chunks of exactly `w` elements; a
partial trailing group is dropped. -/
def chunksExactAux : Nat → Nat → List Nat → List (List Nat)
  | 0, _, _ => []
  | fuel + 1, w, l =>
    if 0 < w ∧ w ≤ l.length then l.take w :: chunksExactAux fuel w (l.drop w)
    else []

/-- Splitting a byte list into exact chunks of `w` elements, dropping any
partial trailing group (spec sect. 4.4). -/
def chunksExact (w : Nat) (l : List Nat) : List (List Nat) :=
  chunksExactAux l.length w l

/-- Modelled from the spec: the byte-to-field-element direction of the codec
in the `convert` module: split into element-width groups, drop a partial
trailing group, decode each group modulo `p` (spec sect. 4.4). -/
def felts_from_u8s (p : Nat) (bytes : List Nat) : List Nat :=
  (chunksExact (elemWidth p) bytes).map (decodeElem p)

/-- Modelled from the spec: the field-element-to-byte direction of the codec
in the `convert` module: encode each element on the fixed element width and
concatenate (spec sect. 4.4). -/
def u8s_from_felts (p : Nat) (felts : List Nat) : List Nat :=
  (felts.map (encodeBytes (elemWidth p))).flatten

/-- Modelled from the spec: a Parameter Set bundling modulus, state width,
rate/capacity split, S-box exponent, round counts, round-constant table and
MDS matrix (spec sect. 3; the `parameters` module is not in the visible
source). -/
structure Params where
  p : Nat
  t : Nat
  rate : Nat
  capacity : Nat
  alpha : Nat
  R_F : Nat
  R_P : Nat
  round_constants : List Nat
  mds : List (List Nat)
deriving DecidableEq, Repr

/-- Modelled from the spec: the structural invariants of a Parameter Set
(spec sect. 3): dimensions of the round-constant table and MDS matrix match
`R_F + R_P` and `t`, the rate/capacity split is consistent, `R_F` is even,
and `gcd(alpha, p-1) = 1` so the S-box is a bijection. -/
def validParams (P : Params) : Bool :=
  (2 ≤ P.p) && (P.t == P.rate + P.capacity) && (1 ≤ P.capacity) && (1 ≤ P.rate) &&
  (P.R_F % 2 == 0) && (Nat.gcd P.alpha (P.p - 1) == 1) &&
  (P.round_constants.length == (P.R_F + P.R_P) * P.t) &&
  (P.mds.length == P.t) && P.mds.all (fun row => row.length == P.t)

/-- Modelled from the spec: the S-box `x -> x^alpha` (spec sect. 4.2). -/
def sbox (P : Params) (x : Nat) : Nat := fpow P.p x P.alpha

/-- Modelled from the spec: add the round constants of absolute round `r` to
every state position; constants are stored one per (round, position) pair
(spec sect. 3 and 4.2). -/
def applyRC (P : Params) (r : Nat) (s : List Nat) : List Nat :=
  List.zipWith (fun j x => fadd P.p x (P.round_constants.getD (r * P.t + j) 0))
    (List.range s.length) s

/-- Apply the S-box to position 0 only, leaving the rest of the state
unchanged (spec sect. 4.2, partial rounds). -/
def sboxFirst (P : Params) (s : List Nat) : List Nat :=
  match s with
  | [] => []
  | x :: xs => sbox P x :: xs

/-- Modelled from the spec: multiply the state, as a column vector, by the
MDS matrix, in field arithmetic (spec sect. 4.2). -/
def mdsMul (P : Params) (s : List Nat) : List Nat :=
  P.mds.map (fun row => (List.zipWith (fmul P.p) row s).foldl (fadd P.p) 0)

/-- Modelled from the spec: a full round at absolute round index `r`: round
constants, S-box at every position, MDS multiplication (spec sect. 4.2). -/
def fullRound (P : Params) (r : Nat) (s : List Nat) : List Nat :=
  mdsMul P ((applyRC P r s).map (sbox P))

/-- Modelled from the spec: a partial round at absolute round index `r`:
round constants, S-box at position 0 only, MDS multiplication (spec
sect. 4.2). -/
def partRound (P : Params) (r : Nat) (s : List Nat) : List Nat :=
  mdsMul P (sboxFirst P (applyRC P r s))

/-- Modelled from the spec: the round applied at absolute round index `i`:
full for the first `R_F/2` rounds, partial for the next `R_P`, full for the
last `R_F/2` (spec sect. 4.2). -/
def roundFn (P : Params) (i : Nat) (s : List Nat) : List Nat :=
  if i < P.R_F / 2 then fullRound P i s
  else if i < P.R_F / 2 + P.R_P then partRound P i s
  else fullRound P i s

/-- Modelled from the spec: the Poseidon permutation: all `R_F + R_P` rounds
applied in order of absolute round index, with no index reset at the
full/partial boundaries (spec sect. 4.2). -/
def permutation (P : Params) (s : List Nat) : List Nat :=
  (List.range (P.R_F + P.R_P)).foldl (fun st i => roundFn P i st) s

/-- Modelled from the spec: padding of the input to a positive multiple of
the rate; the exact padding rule is left open by the spec (sect. 9), so the
model fixes deterministic zero-padding, with an empty input padded to one
full zero block (spec sect. 4.3 and 8). -/
def pad (P : Params) (inputs : List Nat) : List Nat :=
  let nb := max 1 ((inputs.length + P.rate - 1) / P.rate)
  inputs ++ List.replicate (nb * P.rate - inputs.length) 0

/-- Modelled from the spec: combine one rate-sized chunk into the first
`rate` state positions by field addition (spec sect. 4.3). -/
def addChunk (P : Params) (s chunk : List Nat) : List Nat :=
  List.zipWith (fun j x => if j < chunk.length then fadd P.p x (chunk.getD j 0) else x)
    (List.range s.length) s

/-- Modelled from the spec: absorb one chunk: add it into the rate positions,
then run the full state through the permutation (spec sect. 4.3). -/
def absorbChunk (P : Params) (s chunk : List Nat) : List Nat :=
  permutation P (addChunk P s chunk)

/-- Modelled from the spec: the generic sponge hash of the `permutation`
module: validate the Parameter Set, absorb the padded input chunk by chunk
starting from the all-zero state, and squeeze the first `rate` positions of
the final state as the digest (spec sect. 4.3; the module body is not in the
visible source). -/
def hash (inputs : List Nat) (P : Params) : Except HashError (List Nat) :=
  if validParams P then
    Except.ok
      (((chunksExact P.rate (pad P inputs)).foldl (absorbChunk P)
          (List.replicate P.t 0)).take P.rate)
  else Except.error HashError.InvalidInput

/-- The `.unwrap()` applied by every public wrapper in `lib.rs`: a returned
digest on `Ok`, a panic (modelled as `none`) on `Err`. -/
def unwrapHash (P : Params) (inputs : List Nat) : Option (List Nat) :=
  match hash inputs P with
  | Except.ok d => some d
  | Except.error _ => none

/-- Modelled from the spec: the concrete tables of the `s128b` parameter set
are opaque, externally supplied data (spec sect. 1 and 6); the model uses the
spec's sect. 8 toy instance `p = 97, t = 3, r = 2, c = 1, alpha = 5,
R_F = 2, R_P = 2` with a fixed round-constant table and an invertible MDS
matrix. -/
def s128bPARAMS : Params :=
  { p := 97, t := 3, rate := 2, capacity := 1, alpha := 5, R_F := 2, R_P := 2,
    round_constants := [1, 2, 3, 4, 5, 6, 7, 8, 9, 10, 11, 12],
    mds := [[2, 1, 1], [1, 2, 1], [1, 1, 2]] }

/-- Modelled from the spec: the `sw2` tables are opaque external data;
modelled with the same toy instance. -/
def sw2PARAMS : Params := s128bPARAMS

/-- Modelled from the spec: the `sw3` tables are opaque external data;
modelled with the same toy instance. -/
def sw3PARAMS : Params := s128bPARAMS

/-- Modelled from the spec: the `sw4` tables are opaque external data;
modelled with the same toy instance. -/
def sw4PARAMS : Params := s128bPARAMS

/-- Modelled from the spec: the `sw8` tables are opaque external data;
modelled with the same toy instance. -/
def sw8PARAMS : Params := s128bPARAMS

/-- Modelled from the spec: the `pallas` tables are opaque external data;
modelled with the same toy instance. -/
def pallasPARAMS : Params := s128bPARAMS

/-- Modelled from the spec: the `vesta` tables are opaque external data;
modelled with the same toy instance. -/
def vestaPARAMS : Params := s128bPARAMS

/-- `pub fn hash_s128b` from `lib.rs`: `hash(inputs, &s128b::PARAMS).unwrap()`;
the panic on `Err` is modelled as `none`. -/
def hash_s128b (inputs : List Nat) : Option (List Nat) := unwrapHash s128bPARAMS inputs

/-- `pub fn hash_sw2` from `lib.rs`: `hash(inputs, &sw2::PARAMS).unwrap()`. -/
def hash_sw2 (inputs : List Nat) : Option (List Nat) := unwrapHash sw2PARAMS inputs

/-- `pub fn hash_sw3` from `lib.rs`: `hash(inputs, &sw3::PARAMS).unwrap()`. -/
def hash_sw3 (inputs : List Nat) : Option (List Nat) := unwrapHash sw3PARAMS inputs

/-- `pub fn hash_sw4` from `lib.rs`: `hash(inputs, &sw4::PARAMS).unwrap()`. -/
def hash_sw4 (inputs : List Nat) : Option (List Nat) := unwrapHash sw4PARAMS inputs

/-- `pub fn hash_sw8` from `lib.rs`: `hash(inputs, &sw8::PARAMS).unwrap()`. -/
def hash_sw8 (inputs : List Nat) : Option (List Nat) := unwrapHash sw8PARAMS inputs

/-- `pub fn hash_pallas` from `lib.rs`: `hash(inputs, &pallas::PARAMS).unwrap()`. -/
def hash_pallas (inputs : List Nat) : Option (List Nat) := unwrapHash pallasPARAMS inputs

/-- `pub fn hash_vesta` from `lib.rs`: `hash(inputs, &vesta::PARAMS).unwrap()`. -/
def hash_vesta (inputs : List Nat) : Option (List Nat) := unwrapHash vestaPARAMS inputs

/-- The foreign entry point `c_hash_s128b` from `lib.rs`.  A null `input`
pointer is modelled as `input = none` and a null `output` pointer as
`outputNull = true`; a panic (a failed `assert!`, a failed `.unwrap()`, or
`copy_from_slice` on slices of different lengths) is modelled as `none`,
since the crate's panic handler loops forever and the call never returns.
On success the result carries the full contents written into the output
buffer together with the returned count `result.len().min(output_len)`.
`output.copy_from_slice(&result)` demands `output_len = result.len()` and
panics otherwise, exactly as in the source. -/
def c_hash_s128b (input : Option (List Nat)) (outputNull : Bool) (output_len : Nat) :
    Option (List Nat × Nat) :=
  match input with
  | none => none
  | some inputBytes =>
    match hash_s128b (felts_from_u8s s128bPARAMS.p inputBytes) with
    | none => none
    | some digest =>
      let result := u8s_from_felts s128bPARAMS.p digest
      let count := min result.length output_len
      if outputNull then none
      else if output_len = result.length then some (result, count) else none

lemma decodeInt_cons (b : Nat) (l : List Nat) :
    decodeInt (b :: l) = b + 256 * decodeInt l := rfl

lemma bitLenAux_lt : ∀ (fuel n : Nat), n ≤ fuel → n < 2 ^ bitLenAux fuel n := by
  intro fuel
  induction fuel with
  | zero =>
    intro n h
    have hn : n = 0 := by omega
    subst hn
    simp [bitLenAux]
  | succ fuel ih =>
    intro n h
    by_cases h0 : n = 0
    · subst h0
      simp [bitLenAux]
    · rw [bitLenAux, if_neg h0]
      have h2 : n / 2 ≤ fuel := by omega
      have hrec := ih (n / 2) h2
      rw [pow_succ]
      omega

lemma bitLen_lt (n : Nat) : n < 2 ^ bitLen n := bitLenAux_lt n n le_rfl

lemma lt_pow_elemWidth (p : Nat) : p < 256 ^ elemWidth p := by
  have hbit := bitLen_lt p
  have h8 : bitLen p ≤ 8 * elemWidth p := by
    unfold elemWidth
    omega
  have hmono : (2 : Nat) ^ bitLen p ≤ 2 ^ (8 * elemWidth p) :=
    Nat.pow_le_pow_right (by norm_num) h8
  have h256 : (256 : Nat) ^ elemWidth p = 2 ^ (8 * elemWidth p) := by
    rw [Nat.pow_mul]
  omega

lemma encodeBytes_length : ∀ (w x : Nat), (encodeBytes w x).length = w := by
  intro w
  induction w with
  | zero => intro x; simp [encodeBytes]
  | succ w ih => intro x; simp [encodeBytes, ih]

lemma decodeInt_encodeBytes : ∀ (w x : Nat), x < 256 ^ w →
    decodeInt (encodeBytes w x) = x := by
  intro w
  induction w with
  | zero =>
    intro x h
    simp only [pow_zero, Nat.lt_one_iff] at h
    subst h
    simp [encodeBytes, decodeInt]
  | succ w ih =>
    intro x h
    have hdiv : x / 256 < 256 ^ w := by
      rw [pow_succ] at h
      omega
    rw [encodeBytes, decodeInt_cons, ih _ hdiv]
    omega

lemma encodeBytes_mem_lt : ∀ (w x b : Nat), b ∈ encodeBytes w x → b < 256 := by
  intro w
  induction w with
  | zero => intro x b hb; simp [encodeBytes] at hb
  | succ w ih =>
    intro x b hb
    rw [encodeBytes, List.mem_cons] at hb
    rcases hb with hb | hb
    · subst hb
      exact Nat.mod_lt _ (by norm_num)
    · exact ih _ _ hb

/-- C5: field inversion fails with DivisionByZero exactly when the argument
is zero; every nonzero canonical element `a` of a prime field gets
`a^(p-2) mod p`, and that result is a genuine multiplicative inverse:
`mul(a, invert(a)) = 1`. -/
theorem invert_spec (p a : Nat) (hp : Nat.Prime p) (ha : a < p) :
    (∀ e, invert p a = Except.error e ↔ a = 0) ∧
    (a ≠ 0 →
      invert p a = Except.ok (a ^ (p - 2) % p) ∧ fmul p a (a ^ (p - 2) % p) = 1) := by
  constructor
  · intro e
    cases e
    by_cases h0 : a = 0 <;> simp [invert, h0]
  · intro h0
    refine ⟨by simp [invert, h0, fpow], ?_⟩
    have hp2 : 2 ≤ p := hp.two_le
    have hstep : fmul p a (a ^ (p - 2) % p) = a ^ (p - 1) % p := by
      unfold fmul
      conv_rhs => rw [show p - 1 = (p - 2) + 1 by omega]
      rw [pow_succ, Nat.mul_mod, Nat.mod_mod_of_dvd _ dvd_rfl, ← Nat.mul_mod,
        Nat.mul_comm]
    rw [hstep]
    haveI : Fact (Nat.Prime p) := ⟨hp⟩
    haveI : Fact (1 < p) := ⟨hp.one_lt⟩
    have hane : (a : ZMod p) ≠ 0 := by
      rw [Ne, ZMod.natCast_zmod_eq_zero_iff_dvd]
      intro hdvd
      exact h0 (Nat.eq_zero_of_dvd_of_lt hdvd ha)
    have hfer : (a : ZMod p) ^ (p - 1) = 1 := ZMod.pow_card_sub_one_eq_one hane
    have hcast : ((a ^ (p - 1) % p : Nat) : ZMod p) = 1 := by
      rw [ZMod.natCast_mod, Nat.cast_pow, hfer]
    have hlt : a ^ (p - 1) % p < p := Nat.mod_lt _ (by omega)
    calc a ^ (p - 1) % p = ((a ^ (p - 1) % p : Nat) : ZMod p).val :=
          (ZMod.val_cast_of_lt hlt).symm
      _ = (1 : ZMod p).val := by rw [hcast]
      _ = 1 := ZMod.val_one p

/-- C5 witness: the inversion contract instantiated at `p = 5`, `a = 2`:
inverting 0 fails with DivisionByZero, and `invert 2 = 2^3 mod 5 = 3` with
`2 * 3 mod 5 = 1`. -/
theorem invert_spec_witness :
    Nat.Prime 5 ∧ 2 < 5 ∧
      ((∀ e, invert 5 2 = Except.error e ↔ (2 : Nat) = 0) ∧
        ((2 : Nat) ≠ 0 →
          invert 5 2 = Except.ok (2 ^ (5 - 2) % 5) ∧ fmul 5 2 (2 ^ (5 - 2) % 5) = 1)) :=
  ⟨by norm_num, by norm_num, invert_spec 5 2 (by norm_num) (by norm_num)⟩

/-- C8: canonicity is an invariant: on canonical operands below the modulus,
every field operation — add, sub, neg, mul, pow, and a successful invert —
returns a fully reduced result in `[0, p)`. -/
theorem field_ops_canonical (p a b e : Nat) (hp : 2 ≤ p) (ha : a < p) (hb : b < p) :
    fadd p a b < p ∧ fsub p a b < p ∧ fneg p a < p ∧ fmul p a b < p ∧
    fpow p a e < p ∧ (∀ r, invert p a = Except.ok r → r < p) := by
  have hp0 : 0 < p := by omega
  refine ⟨Nat.mod_lt _ hp0, Nat.mod_lt _ hp0, Nat.mod_lt _ hp0, Nat.mod_lt _ hp0,
    Nat.mod_lt _ hp0, ?_⟩
  intro r hr
  by_cases h0 : a = 0
  · simp [invert, h0] at hr
  · simp only [invert, h0, if_false, Except.ok.injEq] at hr
    subst hr
    exact Nat.mod_lt _ hp0

/-- C8 witness: canonicity at `p = 5`, `a = 2`, `b = 3`, `e = 7`. -/
theorem field_ops_canonical_witness :
    2 ≤ 5 ∧ 2 < 5 ∧ 3 < 5 ∧
      (fadd 5 2 3 < 5 ∧ fsub 5 2 3 < 5 ∧ fneg 5 2 < 5 ∧ fmul 5 2 3 < 5 ∧
        fpow 5 2 7 < 5 ∧ (∀ r, invert 5 2 = Except.ok r → r < 5)) :=
  ⟨by norm_num, by norm_num, by norm_num,
    field_ops_canonical 5 2 3 7 (by norm_num) (by norm_num) (by norm_num)⟩

/-- C6: the byte codec on one element: decoding is total and always lands in
`[0, p)`; `decode(encode(x)) = x` for every canonical element `x`;
`decode(encode(decode(B))) = decode(B)` for every element-width buffer `B`;
and decoding is not injective above `p`, witnessed by an element-width byte
buffer `B2` (all bytes in range) with `encode(decode(B2)) ≠ B2`. -/
theorem codec_roundtrip (p x : Nat) (B : List Nat) (hp : 2 ≤ p) (hx : x < p)
    (hB : B.length = elemWidth p) :
    decodeElem p (encodeBytes (elemWidth p) x) = x ∧
    decodeElem p B < p ∧
    decodeElem p (encodeBytes (elemWidth p) (decodeElem p B)) = decodeElem p B ∧
    ∃ B2 : List Nat, B2.length = elemWidth p ∧ (∀ b ∈ B2, b < 256) ∧
      encodeBytes (elemWidth p) (decodeElem p B2) ≠ B2 := by
  have hp0 : 0 < p := by omega
  have hpw : p < 256 ^ elemWidth p := lt_pow_elemWidth p
  refine ⟨?_, Nat.mod_lt _ hp0, ?_, ?_⟩
  · unfold decodeElem
    rw [decodeInt_encodeBytes _ _ (by omega), Nat.mod_eq_of_lt hx]
  · unfold decodeElem
    have hd : decodeInt B % p < p := Nat.mod_lt _ hp0
    rw [decodeInt_encodeBytes _ _ (by omega), Nat.mod_eq_of_lt hd]
  · refine ⟨encodeBytes (elemWidth p) p, encodeBytes_length _ _,
      fun b hb => encodeBytes_mem_lt _ _ _ hb, ?_⟩
    have hdec : decodeElem p (encodeBytes (elemWidth p) p) = 0 := by
      unfold decodeElem
      rw [decodeInt_encodeBytes _ _ hpw, Nat.mod_self]
    rw [hdec]
    intro heq
    have h0 : decodeInt (encodeBytes (elemWidth p) 0) = 0 :=
      decodeInt_encodeBytes _ _ (Nat.pos_pow_of_pos _ (by norm_num))
    have hpv : decodeInt (encodeBytes (elemWidth p) p) = p :=
      decodeInt_encodeBytes _ _ hpw
    rw [heq, hpv] at h0
    omega

/-- C6 witness: the codec contract at `p = 97` (element width 1), `x = 42`,
`B = [200]`. -/
theorem codec_roundtrip_witness :
    2 ≤ 97 ∧ 42 < 97 ∧ ([200] : List Nat).length = elemWidth 97 ∧
      (decodeElem 97 (encodeBytes (elemWidth 97) 42) = 42 ∧
        decodeElem 97 [200] < 97 ∧
        decodeElem 97 (encodeBytes (elemWidth 97) (decodeElem 97 [200])) =
          decodeElem 97 [200] ∧
        ∃ B2 : List Nat, B2.length = elemWidth 97 ∧ (∀ b ∈ B2, b < 256) ∧
          encodeBytes (elemWidth 97) (decodeElem 97 B2) ≠ B2) :=
  ⟨by norm_num, by norm_num, by decide,
    codec_roundtrip 97 42 [200] (by norm_num) (by norm_num) (by decide)⟩

lemma c_hash_s128b_some (inputBytes : List Nat) (outputNull : Bool) (output_len : Nat) :
    c_hash_s128b (some inputBytes) outputNull output_len =
      match hash_s128b (felts_from_u8s s128bPARAMS.p inputBytes) with
      | none => none
      | some digest =>
        let result := u8s_from_felts s128bPARAMS.p digest
        if outputNull then none
        else if output_len = result.length then
          some (result, min result.length output_len)
        else none := rfl

lemma mdsMul_length (P : Params) (s : List Nat) :
    (mdsMul P s).length = P.mds.length := by
  simp [mdsMul]

lemma roundFn_length (P : Params) (i : Nat) (s : List Nat) :
    (roundFn P i s).length = P.mds.length := by
  unfold roundFn
  split
  · simp [fullRound, mdsMul]
  · split
    · simp [partRound, mdsMul]
    · simp [fullRound, mdsMul]

lemma permutation_length (P : Params) (h : P.mds.length = P.t) (s : List Nat)
    (hs : s.length = P.t) : (permutation P s).length = P.t := by
  unfold permutation
  have hgen : ∀ (l : List Nat) (st : List Nat), st.length = P.t →
      (l.foldl (fun st i => roundFn P i st) st).length = P.t := by
    intro l
    induction l with
    | nil => intro st hst; simpa using hst
    | cons a l ih =>
      intro st hst
      rw [List.foldl_cons]
      exact ih _ (by rw [roundFn_length, h])
  exact hgen _ s hs

lemma addChunk_length (P : Params) (s chunk : List Nat) :
    (addChunk P s chunk).length = s.length := by
  simp [addChunk]

lemma absorbAll_length (P : Params) (h : P.mds.length = P.t) :
    ∀ (chunks : List (List Nat)) (st : List Nat), st.length = P.t →
      (chunks.foldl (absorbChunk P) st).length = P.t := by
  intro chunks
  induction chunks with
  | nil => intro st hst; simpa using hst
  | cons c l ih =>
    intro st hst
    rw [List.foldl_cons]
    exact ih _ (permutation_length P h _ (by rw [addChunk_length, hst]))

/-- C3: for a fixed Parameter Set the sponge hash is a deterministic function
of the input sequence alone: two invocations on identical inputs produce
identical digests, both for the generic `hash` and for `hash_s128b`. -/
theorem hash_det (i1 i2 : List Nat) (P : Params) (h : i1 = i2) :
    hash i1 P = hash i2 P ∧ hash_s128b i1 = hash_s128b i2 := by
  subst h
  exact ⟨rfl, rfl⟩

/-- C3 witness: determinism instantiated at the concrete input `[3, 5]`. -/
theorem hash_det_witness :
    ([3, 5] : List Nat) = [3, 5] ∧
      (hash [3, 5] s128bPARAMS = hash [3, 5] s128bPARAMS ∧
        hash_s128b [3, 5] = hash_s128b [3, 5]) :=
  ⟨rfl, hash_det [3, 5] [3, 5] s128bPARAMS rfl⟩

/-- C4: on a well-formed Parameter Set the sponge construction succeeds on
every input sequence — of any length, the empty sequence included — with a
digest of the configured `rate` length; it fails, with InvalidInput, exactly
when the Parameter Set is internally inconsistent, never because of the
input's length. -/
theorem hash_total (inputs : List Nat) (P : Params) :
    (validParams P = true →
      ∃ d, hash inputs P = Except.ok d ∧ d.length = P.rate) ∧
    (validParams P = false →
      hash inputs P = Except.error HashError.InvalidInput) := by
  constructor
  · intro hv
    have hfacts := hv
    simp only [validParams, Bool.and_eq_true, decide_eq_true_eq, beq_iff_eq,
      List.all_eq_true] at hfacts
    obtain ⟨⟨⟨⟨⟨⟨⟨⟨hp2, ht⟩, hc⟩, hr⟩, hRF⟩, hgcd⟩, hrc⟩, hmds⟩, hrows⟩ := hfacts
    refine ⟨((chunksExact P.rate (pad P inputs)).foldl (absorbChunk P)
      (List.replicate P.t 0)).take P.rate, ?_, ?_⟩
    · simp [hash, hv]
    · rw [List.length_take,
        absorbAll_length P hmds _ _ (List.length_replicate _ _)]
      omega
  · intro hv
    simp [hash, hv]

/-- C4 witness: the toy-modelled Parameter Set is well formed and the empty
input sequence produces a well-defined digest of `rate` elements. -/
theorem hash_total_witness :
    validParams s128bPARAMS = true ∧
      ∃ d, hash [] s128bPARAMS = Except.ok d ∧ d.length = s128bPARAMS.rate :=
  ⟨by decide, (hash_total [] s128bPARAMS).1 (by decide)⟩

lemma unwrapHash_cases (P : Params) (inputs : List Nat) :
    (∀ d, unwrapHash P inputs = some d ↔ hash inputs P = Except.ok d) ∧
    (unwrapHash P inputs = none ↔
      hash inputs P = Except.error HashError.InvalidInput) := by
  cases h : hash inputs P with
  | ok d =>
    constructor
    · intro d2
      simp [unwrapHash, h]
    · simp [unwrapHash, h]
  | error e =>
    cases e
    constructor
    · intro d2
      simp [unwrapHash, h]
    · simp [unwrapHash, h]

/-- C10: every public per-parameter-set wrapper in `lib.rs` unwraps the
internal generic hash's Result: it returns a digest exactly when `hash` over
its static PARAMS returns Ok, and a validation failure surfaces as a panic
(modelled `none`), never as a recoverable error value. -/
theorem wrappers_unwrap (inputs : List Nat) :
    ((∀ d, hash_s128b inputs = some d ↔ hash inputs s128bPARAMS = Except.ok d) ∧
      (hash_s128b inputs = none ↔
        hash inputs s128bPARAMS = Except.error HashError.InvalidInput)) ∧
    ((∀ d, hash_sw2 inputs = some d ↔ hash inputs sw2PARAMS = Except.ok d) ∧
      (hash_sw2 inputs = none ↔
        hash inputs sw2PARAMS = Except.error HashError.InvalidInput)) ∧
    ((∀ d, hash_sw3 inputs = some d ↔ hash inputs sw3PARAMS = Except.ok d) ∧
      (hash_sw3 inputs = none ↔
        hash inputs sw3PARAMS = Except.error HashError.InvalidInput)) ∧
    ((∀ d, hash_sw4 inputs = some d ↔ hash inputs sw4PARAMS = Except.ok d) ∧
      (hash_sw4 inputs = none ↔
        hash inputs sw4PARAMS = Except.error HashError.InvalidInput)) ∧
    ((∀ d, hash_sw8 inputs = some d ↔ hash inputs sw8PARAMS = Except.ok d) ∧
      (hash_sw8 inputs = none ↔
        hash inputs sw8PARAMS = Except.error HashError.InvalidInput)) ∧
    ((∀ d, hash_pallas inputs = some d ↔ hash inputs pallasPARAMS = Except.ok d) ∧
      (hash_pallas inputs = none ↔
        hash inputs pallasPARAMS = Except.error HashError.InvalidInput)) ∧
    ((∀ d, hash_vesta inputs = some d ↔ hash inputs vestaPARAMS = Except.ok d) ∧
      (hash_vesta inputs = none ↔
        hash inputs vestaPARAMS = Except.error HashError.InvalidInput)) :=
  ⟨unwrapHash_cases _ _, unwrapHash_cases _ _, unwrapHash_cases _ _,
    unwrapHash_cases _ _, unwrapHash_cases _ _, unwrapHash_cases _ _,
    unwrapHash_cases _ _⟩

/-- C9: a null input pointer or a null output pointer makes the foreign
entry point abort fatally: the call never returns a byte count (the panic
handler loops forever), and the return type offers no error channel. -/
theorem null_pointer_aborts (input : Option (List Nat)) (outputNull : Bool)
    (output_len : Nat) (h : input = none ∨ outputNull = true) :
    c_hash_s128b input outputNull output_len = none := by
  rcases h with h | h
  · subst h
    rfl
  · subst h
    cases input with
    | none => rfl
    | some b =>
      rw [c_hash_s128b_some]
      cases hash_s128b (felts_from_u8s s128bPARAMS.p b) with
      | none => rfl
      | some d => simp

/-- C9 witness: the abort instantiated at a null input pointer. -/
theorem null_pointer_aborts_witness :
    ((none : Option (List Nat)) = none ∨ false = true) ∧
      c_hash_s128b none false 0 = none :=
  ⟨Or.inl rfl, null_pointer_aborts none false 0 (Or.inl rfl)⟩

/-- C1: evaluation of the code at the failing input: one input byte and
`output_len = 1`, smaller than the encoded digest length 2.  The claimed
behavior is to return 1 and write the first digest byte; the code instead
panics inside `output.copy_from_slice(&result)` (which demands equal slice
lengths), so the call aborts and never returns — modelled as `none`. -/
theorem c_hash_s128b_truncation_aborts :
    c_hash_s128b (some [0]) false 1 = none := by decide

/-- C2: whenever the foreign entry point completes and writes into the output
buffer, the bytes written are exactly the byte encoding (`u8s_from_felts`) of
the digest that the pure `hash_s128b` produces on the field elements decoded
(`felts_from_u8s`) from the input buffer, and the returned count is
`min(encoded_length, output_len)`: the entry point is the composition
decode-then-hash-then-encode followed by the copy. -/
theorem c_hash_s128b_refines (inputBytes : List Nat) (output_len : Nat)
    (bytes : List Nat) (count : Nat)
    (h : c_hash_s128b (some inputBytes) false output_len = some (bytes, count)) :
    ∃ digest, hash_s128b (felts_from_u8s s128bPARAMS.p inputBytes) = some digest ∧
      bytes = u8s_from_felts s128bPARAMS.p digest ∧
      count = min (u8s_from_felts s128bPARAMS.p digest).length output_len := by
  rw [c_hash_s128b_some] at h
  cases hh : hash_s128b (felts_from_u8s s128bPARAMS.p inputBytes) with
  | none =>
    rw [hh] at h
    simp at h
  | some digest =>
    rw [hh] at h
    refine ⟨digest, rfl, ?_⟩
    by_cases hlen : output_len = (u8s_from_felts s128bPARAMS.p digest).length
    · subst hlen
      simp only [Bool.false_eq_true, if_false, if_pos, Option.some.injEq,
        Prod.mk.injEq] at h
      exact ⟨h.1.symm, h.2.symm⟩
    · exfalso
      simp [hlen] at h

/-- C2 witness: a completing call (input byte `0`, `output_len = 2`) whose
written bytes are the encoding of the true digest. -/
theorem c_hash_s128b_refines_witness :
    ∃ bytes count, c_hash_s128b (some [0]) false 2 = some (bytes, count) ∧
      ∃ digest, hash_s128b (felts_from_u8s s128bPARAMS.p [0]) = some digest ∧
        bytes = u8s_from_felts s128bPARAMS.p digest ∧
        count = min (u8s_from_felts s128bPARAMS.p digest).length 2 := by
  cases hm : c_hash_s128b (some [0]) false 2 with
  | none => exact absurd hm (by decide)
  | some r =>
    obtain ⟨bytes, count⟩ := r
    exact ⟨bytes, count, rfl, c_hash_s128b_refines [0] 2 bytes count hm⟩

/-- C7: the permutation is exactly `R_F/2` full rounds, then `R_P` partial
rounds, then `R_F/2` more full rounds, with round-constant lookups indexed by
the absolute round index across the whole sequence — the partial block
continues at index `R_F/2` and the final full block at `R_F/2 + R_P`, with no
reset at the boundaries. -/
theorem permutation_round_structure (P : Params) (s : List Nat)
    (h : P.R_F % 2 = 0) :
    permutation P s =
      (List.range (P.R_F / 2)).foldl
        (fun st i => fullRound P (P.R_F / 2 + P.R_P + i) st)
        ((List.range P.R_P).foldl (fun st i => partRound P (P.R_F / 2 + i) st)
          ((List.range (P.R_F / 2)).foldl (fun st i => fullRound P i st) s)) := by
  have hsplit : P.R_F + P.R_P = P.R_F / 2 + (P.R_P + P.R_F / 2) := by omega
  have e1 : ∀ init : List Nat,
      (List.range (P.R_F / 2)).foldl (fun st i => roundFn P i st) init =
        (List.range (P.R_F / 2)).foldl (fun st i => fullRound P i st) init := by
    intro init
    apply List.foldl_ext
    intro st i hi
    rw [List.mem_range] at hi
    unfold roundFn
    rw [if_pos hi]
  have e2 : ∀ init : List Nat,
      (List.range P.R_P).foldl (fun st i => roundFn P (P.R_F / 2 + i) st) init =
        (List.range P.R_P).foldl (fun st i => partRound P (P.R_F / 2 + i) st) init := by
    intro init
    apply List.foldl_ext
    intro st i hi
    rw [List.mem_range] at hi
    unfold roundFn
    rw [if_neg (by omega), if_pos (by omega)]
  have e3 : ∀ init : List Nat,
      (List.range (P.R_F / 2)).foldl
          (fun st i => roundFn P (P.R_F / 2 + (P.R_P + i)) st) init =
        (List.range (P.R_F / 2)).foldl
          (fun st i => fullRound P (P.R_F / 2 + P.R_P + i) st) init := by
    intro init
    apply List.foldl_ext
    intro st i _
    unfold roundFn
    rw [if_neg (by omega), if_neg (by omega), Nat.add_assoc]
  rw [permutation, hsplit, List.range_add, List.foldl_append, List.range_add,
    List.map_append, List.foldl_append, List.map_map, List.foldl_map,
    List.foldl_map]
  simp only [Function.comp_def]
  rw [e1, e2, e3]

/-- C7 witness: the decomposition instantiated at the toy-modelled Parameter
Set (`R_F = 2`, `R_P = 2`) and the concrete state `[1, 2, 3]`. -/
theorem permutation_round_structure_witness :
    s128bPARAMS.R_F % 2 = 0 ∧
      permutation s128bPARAMS [1, 2, 3] =
        (List.range (s128bPARAMS.R_F / 2)).foldl
          (fun st i => fullRound s128bPARAMS
            (s128bPARAMS.R_F / 2 + s128bPARAMS.R_P + i) st)
          ((List.range s128bPARAMS.R_P).foldl
            (fun st i => partRound s128bPARAMS (s128bPARAMS.R_F / 2 + i) st)
            ((List.range (s128bPARAMS.R_F / 2)).foldl
              (fun st i => fullRound s128bPARAMS i st) [1, 2, 3])) :=
  ⟨by decide, permutation_round_structure s128bPARAMS [1, 2, 3] (by decide)⟩

end Poseidon
